import Mathlib

/-!
Verification of the natural-sort comparator and sort operations of
`natural-sort-rs` (`src/lib.rs`), shallowly embedded in Lean.

Byte spans (`&[u8]`, and the UTF-8 bytes of `&str`) are modelled as
`List Nat`; every byte of interest is compared through `Ord`/`compare`
exactly as the Rust code compares `u8` values.
-/

namespace NaturalSortRs

/-- `u8::is_ascii_digit`: the byte lies in `b'0'..=b'9'`, i.e. `48..=57`. -/
def isDigit (c : Nat) : Bool := 48 ≤ c && c ≤ 57

/-- `trim_zeros` (inner function of `cmp_digits`): `while let [b'0', rest @ ..] = *slice`,
strip leading `b'0'` (48) bytes. -/
def trim_zeros : List Nat → List Nat
  | c :: rest => if c = 48 then trim_zeros rest else c :: rest
  | [] => []

/-- The counter `i` of the digit-reading loop of `read_digits`:
`while let [b'0'..=b'9', rest @ ..] = *slice { i += 1; *slice = rest }`. -/
def digit_count : List Nat → Nat
  | c :: rest => if isDigit c then digit_count rest + 1 else 0
  | [] => 0

/-- `read_digits`: trim leading zeros, then consume the ASCII-digit run.
The first component models the pointer reconstruction
`from_raw_parts(slice_start, i)`: the first `i` bytes counted from the
trimmed start. The second component is the advanced slice (the `&mut`
out-state after the loop). -/
def read_digits (s : List Nat) : List Nat × List Nat :=
  let t := trim_zeros s
  let i := digit_count t
  (t.take i, t.drop i)

/-- Rust `<[u8]>::cmp`: lexicographic element-wise comparison,
a strict initial segment is `Less`. -/
def sliceCmp : List Nat → List Nat → Ordering
  | [], [] => .eq
  | [], _ :: _ => .lt
  | _ :: _, [] => .gt
  | x :: xs, y :: ys =>
    match compare x y with
    | .eq => sliceCmp xs ys
    | o => o

/-- `cmp_digits`: read both digit runs, compare their lengths, and on a tie
compare the runs with `<[u8]>::cmp`. The returned pair of lists is the
out-state of the two `&mut` slices. -/
def cmp_digits (a b : List Nat) : Ordering × List Nat × List Nat :=
  let ra := read_digits a
  let rb := read_digits b
  let o :=
    match compare ra.1.length rb.1.length with
    | .eq => sliceCmp ra.1 rb.1
    | o => o
  (o, ra.2, rb.2)

/-- The scan loop of `cmp_ascii`, iteration-counted by an explicit fuel.
`cmp_ascii` supplies `a.length + b.length`, which is never exhausted
because each iteration consumes at least one byte from each side
(`cmp_ascii_cons` below recovers the exact loop equation). -/
def cmpAsciiFuel : Nat → List Nat → List Nat → Ordering
  | fuel + 1, ac :: atail, bc :: btail =>
    if isDigit ac && isDigit bc then
      match cmp_digits (ac :: atail) (bc :: btail) with
      | (.eq, a2, b2) => cmpAsciiFuel fuel a2 b2
      | (o, _, _) => o
    else
      match compare ac bc with
      | .eq => cmpAsciiFuel fuel atail btail
      | o => o
  | _, a, b => compare a.length b.length

/-- `cmp_ascii`: lock-step scan; when both current bytes are ASCII digits the
digit-run branch `cmp_digits` decides and advances, otherwise the two bytes
are compared directly; on loop exit the remaining lengths are compared. -/
def cmp_ascii (a b : List Nat) : Ordering :=
  cmpAsciiFuel (a.length + b.length) a b

/-- `natural_cmp` on both the `str` view (via `as_bytes`) and the `[u8]` view
delegates to `cmp_ascii` on the byte span. -/
def natural_cmp (a b : List Nat) : Ordering := cmp_ascii a b

/-! ### Basic length facts about trimming and digit reading -/

theorem trim_zeros_length_le (s : List Nat) : (trim_zeros s).length ≤ s.length := by
  induction s with
  | nil => simp [trim_zeros]
  | cons c rest ih =>
    by_cases h : c = 48
    · simp only [trim_zeros, h, if_true, List.length_cons]
      omega
    · simp [trim_zeros, h]

theorem digit_count_le (s : List Nat) : digit_count s ≤ s.length := by
  induction s with
  | nil => simp [digit_count]
  | cons c rest ih =>
    by_cases h : isDigit c
    · simp only [digit_count, h, if_true, List.length_cons]
      omega
    · simp [digit_count, h]

theorem trim_zeros_cons_48 (s : List Nat) : trim_zeros (48 :: s) = trim_zeros s := by
  simp [trim_zeros]

theorem trim_zeros_cons_ne {c : Nat} (h : c ≠ 48) (s : List Nat) :
    trim_zeros (c :: s) = c :: s := by
  simp [trim_zeros, h]

/-- After trimming and reading, the advanced slice `(read_digits (c :: s)).2`
is no longer than `s` when `c` is a digit: the loop consumed at least `c`. -/
theorem read_digits_snd_length_lt {c : Nat} (h : isDigit c = true) (s : List Nat) :
    ((read_digits (c :: s)).2).length ≤ s.length := by
  by_cases h48 : c = 48
  · subst h48
    simp only [read_digits, trim_zeros_cons_48]
    calc ((trim_zeros s).drop (digit_count (trim_zeros s))).length
        ≤ (trim_zeros s).length := by simp [List.length_drop]
      _ ≤ s.length := trim_zeros_length_le s
  · simp only [read_digits, trim_zeros_cons_ne h48]
    have hc : digit_count (c :: s) = digit_count s + 1 := by simp [digit_count, h]
    simp [hc, List.length_drop]

theorem cmp_digits_snd_fst (a b : List Nat) : (cmp_digits a b).2.1 = (read_digits a).2 := rfl

theorem cmp_digits_snd_snd (a b : List Nat) : (cmp_digits a b).2.2 = (read_digits b).2 := rfl

/-! ### The loop equation for `cmp_ascii`, independent of fuel -/

theorem cmpAsciiFuel_nil_left (f : Nat) (b : List Nat) :
    cmpAsciiFuel f [] b = compare 0 b.length := by
  cases f <;> rfl

theorem cmpAsciiFuel_nil_right (f : Nat) (a : List Nat) :
    cmpAsciiFuel f a [] = compare a.length 0 := by
  cases f <;> cases a <;> rfl

theorem cmpAsciiFuel_congr :
    ∀ n f g a b, a.length + b.length ≤ n → a.length + b.length ≤ f →
      a.length + b.length ≤ g → cmpAsciiFuel f a b = cmpAsciiFuel g a b := by
  intro n
  induction n with
  | zero =>
    intro f g a b hn _ _
    cases a with
    | nil => rw [cmpAsciiFuel_nil_left, cmpAsciiFuel_nil_left]
    | cons ac atail => simp at hn
  | succ n ih =>
    intro f g a b hn hf hg
    cases a with
    | nil => rw [cmpAsciiFuel_nil_left, cmpAsciiFuel_nil_left]
    | cons ac atail =>
      cases b with
      | nil => rw [cmpAsciiFuel_nil_right, cmpAsciiFuel_nil_right]
      | cons bc btail =>
        simp only [List.length_cons] at hf hg hn
        obtain ⟨f', rfl⟩ : ∃ f', f = f' + 1 := ⟨f - 1, by omega⟩
        obtain ⟨g', rfl⟩ : ∃ g', g = g' + 1 := ⟨g - 1, by omega⟩
        show cmpAsciiFuel (f' + 1) (ac :: atail) (bc :: btail) =
          cmpAsciiFuel (g' + 1) (ac :: atail) (bc :: btail)
        by_cases hd : (isDigit ac && isDigit bc) = true
        · obtain ⟨hda, hdb⟩ : isDigit ac = true ∧ isDigit bc = true := by
            simpa [Bool.and_eq_true] using hd
          have ha2 := read_digits_snd_length_lt hda atail
          have hb2 := read_digits_snd_length_lt hdb btail
          simp only [cmpAsciiFuel, hd, if_true]
          rcases hcd : cmp_digits (ac :: atail) (bc :: btail) with ⟨o, a2, b2⟩
          have ha2' : a2.length ≤ atail.length := by
            have := cmp_digits_snd_fst (ac :: atail) (bc :: btail)
            rw [hcd] at this; simpa [← this] using ha2
          have hb2' : b2.length ≤ btail.length := by
            have := cmp_digits_snd_snd (ac :: atail) (bc :: btail)
            rw [hcd] at this; simpa [← this] using hb2
          cases o with
          | eq => exact ih f' g' a2 b2 (by omega) (by omega) (by omega)
          | lt => rfl
          | gt => rfl
        · simp only [cmpAsciiFuel, hd, if_false]
          cases hcc : compare ac bc with
          | eq => exact ih f' g' atail btail (by omega) (by omega) (by omega)
          | lt => rfl
          | gt => rfl

/-- The loop equation of `cmp_ascii`: exactly the body of the Rust `while let`,
one iteration per application. -/
theorem cmp_ascii_cons (ac bc : Nat) (atail btail : List Nat) :
    cmp_ascii (ac :: atail) (bc :: btail) =
      if isDigit ac && isDigit bc then
        match cmp_digits (ac :: atail) (bc :: btail) with
        | (.eq, a2, b2) => cmp_ascii a2 b2
        | (o, _, _) => o
      else
        match compare ac bc with
        | .eq => cmp_ascii atail btail
        | o => o := by
  show cmpAsciiFuel ((ac :: atail).length + (bc :: btail).length) _ _ = _
  simp only [List.length_cons]
  have hstep : atail.length + 1 + (btail.length + 1) = (atail.length + btail.length + 1) + 1 := by
    omega
  rw [hstep]
  show cmpAsciiFuel ((atail.length + btail.length + 1) + 1) (ac :: atail) (bc :: btail) = _
  by_cases hd : (isDigit ac && isDigit bc) = true
  · obtain ⟨hda, hdb⟩ : isDigit ac = true ∧ isDigit bc = true := by
      simpa [Bool.and_eq_true] using hd
    simp only [cmpAsciiFuel, hd, if_true]
    rcases hcd : cmp_digits (ac :: atail) (bc :: btail) with ⟨o, a2, b2⟩
    have ha2' : a2.length ≤ atail.length := by
      have := cmp_digits_snd_fst (ac :: atail) (bc :: btail)
      rw [hcd] at this
      simpa [← this] using read_digits_snd_length_lt hda atail
    have hb2' : b2.length ≤ btail.length := by
      have := cmp_digits_snd_snd (ac :: atail) (bc :: btail)
      rw [hcd] at this
      simpa [← this] using read_digits_snd_length_lt hdb btail
    cases o with
    | eq =>
      show cmpAsciiFuel (atail.length + btail.length + 1) a2 b2 = cmp_ascii a2 b2
      exact cmpAsciiFuel_congr (a2.length + b2.length) _ _ a2 b2 le_rfl (by omega) le_rfl
    | lt => rfl
    | gt => rfl
  · simp only [cmpAsciiFuel, hd, if_false]
    cases hcc : compare ac bc with
    | eq =>
      show cmpAsciiFuel (atail.length + btail.length + 1) atail btail = cmp_ascii atail btail
      exact cmpAsciiFuel_congr (atail.length + btail.length) _ _ atail btail le_rfl
        (by omega) le_rfl
    | lt => rfl
    | gt => rfl

theorem cmp_ascii_nil_left (b : List Nat) : cmp_ascii [] b = compare 0 b.length := by
  unfold cmp_ascii
  simp only [List.length_nil, Nat.zero_add]
  exact cmpAsciiFuel_nil_left b.length b

theorem cmp_ascii_nil_right (a : List Nat) : cmp_ascii a [] = compare a.length 0 := by
  unfold cmp_ascii
  simp only [List.length_nil, Nat.add_zero]
  exact cmpAsciiFuel_nil_right a.length a

/-! ### `read_digits` as takeWhile / dropWhile -/

theorem digit_count_eq_length_takeWhile (s : List Nat) :
    digit_count s = (s.takeWhile isDigit).length := by
  induction s with
  | nil => simp [digit_count]
  | cons c rest ih =>
    by_cases h : isDigit c
    · simp [digit_count, h, List.takeWhile_cons, ih]
    · simp [digit_count, h, List.takeWhile_cons]

theorem take_digit_count (s : List Nat) :
    s.take (digit_count s) = s.takeWhile isDigit := by
  induction s with
  | nil => simp [digit_count]
  | cons c rest ih =>
    by_cases h : isDigit c
    · simp [digit_count, h, List.takeWhile_cons, ih]
    · simp [digit_count, h, List.takeWhile_cons]

theorem drop_digit_count (s : List Nat) :
    s.drop (digit_count s) = s.dropWhile isDigit := by
  induction s with
  | nil => simp [digit_count]
  | cons c rest ih =>
    by_cases h : isDigit c
    · simp [digit_count, h, List.dropWhile_cons, ih]
    · simp [digit_count, h, List.dropWhile_cons]

theorem read_digits_fst (s : List Nat) :
    (read_digits s).1 = (trim_zeros s).takeWhile isDigit := by
  simp [read_digits, take_digit_count]

theorem read_digits_snd (s : List Nat) :
    (read_digits s).2 = (trim_zeros s).dropWhile isDigit := by
  simp [read_digits, drop_digit_count]

theorem isDigit_48 : isDigit 48 = true := by decide

/-- Dropping the digit run commutes with zero-trimming: the trimmed zeros are
digits, so they are dropped either way. -/
theorem dropWhile_trim_zeros (s : List Nat) :
    (trim_zeros s).dropWhile isDigit = s.dropWhile isDigit := by
  induction s with
  | nil => simp [trim_zeros]
  | cons c rest ih =>
    by_cases h : c = 48
    · subst h
      rw [trim_zeros_cons_48, ih, List.dropWhile_cons]
      simp [isDigit_48]
    · rw [trim_zeros_cons_ne h]

/-- Trimming zeros off the maximal digit run equals taking the digit run of
the trimmed span. -/
theorem trim_zeros_takeWhile (s : List Nat) :
    trim_zeros (s.takeWhile isDigit) = (trim_zeros s).takeWhile isDigit := by
  induction s with
  | nil => simp [trim_zeros]
  | cons c rest ih =>
    by_cases h : c = 48
    · subst h
      rw [trim_zeros_cons_48, List.takeWhile_cons]
      simp only [isDigit_48, if_true]
      rw [trim_zeros_cons_48, ih]
    · rw [trim_zeros_cons_ne h, List.takeWhile_cons]
      by_cases hd : isDigit c
      · simp only [hd, if_true]
        rw [trim_zeros_cons_ne h]
      · simp [hd, trim_zeros]

theorem read_digits_fst_comm (s : List Nat) :
    (read_digits s).1 = trim_zeros (s.takeWhile isDigit) := by
  rw [read_digits_fst, trim_zeros_takeWhile]

theorem read_digits_snd_drop (s : List Nat) :
    (read_digits s).2 = s.dropWhile isDigit := by
  rw [read_digits_snd, dropWhile_trim_zeros]

/-! ### Ordering and slice-compare order facts -/

theorem then_eq_eq {o p : Ordering} : o.then p = .eq ↔ o = .eq ∧ p = .eq := by
  cases o <;> simp [Ordering.then]

theorem then_ne_gt {o p : Ordering} : o.then p ≠ .gt ↔ o = .lt ∨ (o = .eq ∧ p ≠ .gt) := by
  cases o <;> simp [Ordering.then]

theorem then_swap (o p : Ordering) : (o.then p).swap = o.swap.then p.swap := by
  cases o <;> cases p <;> rfl

theorem sliceCmp_swap : ∀ a b : List Nat, sliceCmp b a = (sliceCmp a b).swap
  | [], [] => rfl
  | [], _ :: _ => rfl
  | _ :: _, [] => rfl
  | x :: xs, y :: ys => by
    simp only [sliceCmp]
    rw [← Nat.compare_swap x y]
    cases compare x y with
    | eq => exact sliceCmp_swap xs ys
    | lt => rfl
    | gt => rfl

theorem sliceCmp_eq_iff : ∀ a b : List Nat, sliceCmp a b = .eq ↔ a = b
  | [], [] => by simp [sliceCmp]
  | [], _ :: _ => by simp [sliceCmp]
  | _ :: _, [] => by simp [sliceCmp]
  | x :: xs, y :: ys => by
    simp only [sliceCmp]
    cases hxy : compare x y with
    | eq =>
      have hx : x = y := Nat.compare_eq_eq.mp hxy
      simp [hx, sliceCmp_eq_iff xs ys]
    | lt =>
      have hx : x ≠ y := by
        have := Nat.compare_eq_lt.mp hxy; omega
      simp [hx]
    | gt =>
      have hx : x ≠ y := by
        have := Nat.compare_eq_gt.mp hxy; omega
      simp [hx]

theorem sliceCmp_nil_left_ne_gt (b : List Nat) : sliceCmp [] b ≠ .gt := by
  cases b <;> simp [sliceCmp]

theorem sliceCmp_trans : ∀ a b c : List Nat,
    sliceCmp a b ≠ .gt → sliceCmp b c ≠ .gt → sliceCmp a c ≠ .gt
  | [], _, c, _, _ => sliceCmp_nil_left_ne_gt c
  | _ :: _, [], _, h1, _ => by simp [sliceCmp] at h1
  | _ :: _, _ :: _, [], _, h2 => by simp [sliceCmp] at h2
  | x :: xs, y :: ys, z :: zs, h1, h2 => by
    simp only [sliceCmp] at h1 h2 ⊢
    cases hxy : compare x y with
    | gt => rw [hxy] at h1; exact absurd rfl h1
    | lt =>
      have hlt : x < y := Nat.compare_eq_lt.mp hxy
      cases hyz : compare y z with
      | gt => rw [hyz] at h2; exact absurd rfl h2
      | lt =>
        have : x < z := by have := Nat.compare_eq_lt.mp hyz; omega
        rw [Nat.compare_eq_lt.mpr this]
        simp
      | eq =>
        have : x < z := by have := Nat.compare_eq_eq.mp hyz; omega
        rw [Nat.compare_eq_lt.mpr this]
        simp
    | eq =>
      have hxe : x = y := Nat.compare_eq_eq.mp hxy
      rw [hxy] at h1
      cases hyz : compare y z with
      | gt => rw [hyz] at h2; exact absurd rfl h2
      | lt =>
        have : x < z := by have := Nat.compare_eq_lt.mp hyz; omega
        rw [Nat.compare_eq_lt.mpr this]
        simp
      | eq =>
        have hye : y = z := Nat.compare_eq_eq.mp hyz
        rw [hyz] at h2
        rw [Nat.compare_eq_eq.mpr (hxe.trans hye)]
        exact sliceCmp_trans xs ys zs h1 h2

/-! ### Scan tokens

A proof device (not part of the source): a byte span is cut into scan tokens,
one token per non-digit byte and one per maximal digit run (kept as its
zero-trimmed significant digits). `cmp_ascii` coincides with the
lexicographic comparison of token lists, from which the order axioms follow. -/

inductive Tok where
  | byte (c : Nat)
  | num (ds : List Nat)
deriving DecidableEq

/-- Token comparison. A digit run against a non-digit byte is decided by raw
byte ordinals: every digit byte lies in `48..=57`, so only whether the
non-digit byte is below `48` matters. -/
def cmpTok : Tok → Tok → Ordering
  | .byte c, .byte d => compare c d
  | .num x, .num y => (compare x.length y.length).then (sliceCmp x y)
  | .byte c, .num _ => if c < 48 then .lt else .gt
  | .num _, .byte c => if c < 48 then .gt else .lt

def cmpTokList : List Tok → List Tok → Ordering
  | [], [] => .eq
  | [], _ :: _ => .lt
  | _ :: _, [] => .gt
  | x :: xs, y :: ys => (cmpTok x y).then (cmpTokList xs ys)

theorem cmpTok_swap (t u : Tok) : cmpTok u t = (cmpTok t u).swap := by
  cases t with
  | byte c =>
    cases u with
    | byte d => exact (Nat.compare_swap c d).symm
    | num y =>
      by_cases h : c < 48 <;> simp [cmpTok, h, Ordering.swap]
  | num x =>
    cases u with
    | byte d =>
      by_cases h : d < 48 <;> simp [cmpTok, h, Ordering.swap]
    | num y =>
      simp only [cmpTok]
      rw [then_swap, Nat.compare_swap x.length y.length, ← sliceCmp_swap x y]

theorem cmpTok_eq_iff (t u : Tok) : cmpTok t u = .eq ↔ t = u := by
  cases t with
  | byte c =>
    cases u with
    | byte d => simp [cmpTok, Nat.compare_eq_eq]
    | num y =>
      by_cases h : c < 48 <;> simp [cmpTok, h]
  | num x =>
    cases u with
    | byte d =>
      by_cases h : d < 48 <;> simp [cmpTok, h]
    | num y =>
      simp only [cmpTok, then_eq_eq, Nat.compare_eq_eq, sliceCmp_eq_iff]
      constructor
      · rintro ⟨-, rfl⟩; rfl
      · rintro h
        cases h
        exact ⟨rfl, rfl⟩

theorem cmpTok_trans (t u v : Tok) (h1 : cmpTok t u ≠ .gt) (h2 : cmpTok u v ≠ .gt) :
    cmpTok t v ≠ .gt := by
  cases t with
  | byte c =>
    cases u with
    | byte d =>
      have hcd : c ≤ d := by
        by_contra h
        exact h1 (Nat.compare_eq_gt.mpr (by omega))
      cases v with
      | byte e =>
        have hde : d ≤ e := by
          by_contra h
          exact h2 (Nat.compare_eq_gt.mpr (by omega))
        show compare c e ≠ .gt
        rw [Ne, Nat.compare_eq_gt]
        omega
      | num y =>
        have hd : d < 48 := by
          by_contra h
          exact h2 (by simp [cmpTok, h])
        show (if c < 48 then Ordering.lt else Ordering.gt) ≠ .gt
        have : c < 48 := by omega
        simp [this]
    | num x =>
      have hc : c < 48 := by
        by_contra h
        exact h1 (by simp [cmpTok, h])
      cases v with
      | byte e =>
        have he : 48 ≤ e := by
          by_contra h
          exact h2 (by simp [cmpTok, Nat.lt_of_not_le h])
        show compare c e ≠ .gt
        rw [Ne, Nat.compare_eq_gt]
        omega
      | num y =>
        show (if c < 48 then Ordering.lt else Ordering.gt) ≠ .gt
        simp [hc]
  | num x =>
    cases u with
    | byte d =>
      have hd : 48 ≤ d := by
        by_contra h
        exact h1 (by simp [cmpTok, Nat.lt_of_not_le h])
      cases v with
      | byte e =>
        have hde : d ≤ e := by
          by_contra h
          exact h2 (Nat.compare_eq_gt.mpr (by omega))
        show (if e < 48 then Ordering.gt else Ordering.lt) ≠ .gt
        have : ¬e < 48 := by omega
        simp [this]
      | num y =>
        have hd' : d < 48 := by
          by_contra h
          exact h2 (by simp [cmpTok, h])
        omega
    | num y =>
      cases v with
      | byte e =>
        have he : 48 ≤ e := by
          by_contra h
          exact h2 (by simp [cmpTok, Nat.lt_of_not_le h])
        show (if e < 48 then Ordering.gt else Ordering.lt) ≠ .gt
        have : ¬e < 48 := by omega
        simp [this]
      | num z =>
        simp only [cmpTok, then_ne_gt] at h1 h2 ⊢
        rcases h1 with h1 | ⟨h1e, h1s⟩
        · rcases h2 with h2 | ⟨h2e, h2s⟩
          · exact Or.inl (Nat.compare_eq_lt.mpr
              (lt_trans (Nat.compare_eq_lt.mp h1) (Nat.compare_eq_lt.mp h2)))
          · have := Nat.compare_eq_eq.mp h2e
            exact Or.inl (Nat.compare_eq_lt.mpr (this ▸ Nat.compare_eq_lt.mp h1))
        · rcases h2 with h2 | ⟨h2e, h2s⟩
          · have := Nat.compare_eq_eq.mp h1e
            exact Or.inl (Nat.compare_eq_lt.mpr (this ▸ Nat.compare_eq_lt.mp h2))
          · refine Or.inr ⟨?_, sliceCmp_trans x y z h1s h2s⟩
            rw [Nat.compare_eq_eq]
            rw [Nat.compare_eq_eq] at h1e h2e
            omega

theorem cmpTok_lt_trans {t u v : Tok} (h1 : cmpTok t u = .lt) (h2 : cmpTok u v = .lt) :
    cmpTok t v = .lt := by
  have hg : cmpTok t v ≠ .gt :=
    cmpTok_trans t u v (by simp [h1]) (by simp [h2])
  have he : cmpTok t v ≠ .eq := by
    intro h
    have htv : t = v := (cmpTok_eq_iff t v).mp h
    subst htv
    rw [cmpTok_swap] at h2
    rw [h1] at h2
    exact absurd h2 (by decide)
  cases h : cmpTok t v with
  | lt => rfl
  | eq => exact absurd h he
  | gt => exact absurd h hg

theorem cmpTokList_swap : ∀ a b : List Tok, cmpTokList b a = (cmpTokList a b).swap
  | [], [] => rfl
  | [], _ :: _ => rfl
  | _ :: _, [] => rfl
  | x :: xs, y :: ys => by
    simp only [cmpTokList]
    rw [then_swap, ← cmpTok_swap, ← cmpTokList_swap xs ys]

theorem cmpTokList_eq_iff : ∀ a b : List Tok, cmpTokList a b = .eq ↔ a = b
  | [], [] => by simp [cmpTokList]
  | [], _ :: _ => by simp [cmpTokList]
  | _ :: _, [] => by simp [cmpTokList]
  | x :: xs, y :: ys => by
    simp only [cmpTokList, then_eq_eq, cmpTok_eq_iff, cmpTokList_eq_iff xs ys,
      List.cons.injEq]

theorem cmpTokList_nil_left_ne_gt (b : List Tok) : cmpTokList [] b ≠ .gt := by
  cases b <;> simp [cmpTokList]

theorem cmpTokList_trans : ∀ a b c : List Tok,
    cmpTokList a b ≠ .gt → cmpTokList b c ≠ .gt → cmpTokList a c ≠ .gt
  | [], _, c, _, _ => cmpTokList_nil_left_ne_gt c
  | _ :: _, [], _, h1, _ => by simp [cmpTokList] at h1
  | _ :: _, _ :: _, [], _, h2 => by simp [cmpTokList] at h2
  | x :: xs, y :: ys, z :: zs, h1, h2 => by
    simp only [cmpTokList, then_ne_gt] at h1 h2 ⊢
    rcases h1 with h1 | ⟨h1e, h1t⟩
    · rcases h2 with h2 | ⟨h2e, h2t⟩
      · exact Or.inl (cmpTok_lt_trans h1 h2)
      · obtain rfl : y = z := (cmpTok_eq_iff y z).mp h2e
        exact Or.inl h1
    · obtain rfl : x = y := (cmpTok_eq_iff x y).mp h1e
      rcases h2 with h2 | ⟨h2e, h2t⟩
      · exact Or.inl h2
      · obtain rfl : x = z := (cmpTok_eq_iff x z).mp h2e
        exact Or.inr ⟨h2e, cmpTokList_trans xs ys zs h1t h2t⟩

/-- Cut a byte span into scan tokens: each non-digit byte is one token, each
maximal ASCII-digit run is one token holding its zero-trimmed digits. -/
def tokenize : List Nat → List Tok
  | [] => []
  | c :: rest =>
    if isDigit c then
      .num (trim_zeros ((c :: rest).takeWhile isDigit)) ::
        tokenize ((c :: rest).dropWhile isDigit)
    else
      .byte c :: tokenize rest
termination_by s => s.length
decreasing_by
  · simp only [List.length_cons]
    calc ((c :: rest).dropWhile isDigit).length
        = (rest.dropWhile isDigit).length := by
          rw [List.dropWhile_cons_of_pos (by assumption)]
      _ ≤ rest.length := (List.dropWhile_sublist _).length_le
      _ < rest.length + 1 := Nat.lt_succ_self _
  · simp

theorem tokenize_cons_digit {c : Nat} (h : isDigit c = true) (rest : List Nat) :
    tokenize (c :: rest) =
      .num (trim_zeros ((c :: rest).takeWhile isDigit)) ::
        tokenize ((c :: rest).dropWhile isDigit) := by
  rw [tokenize]
  simp [h]

theorem tokenize_cons_nondigit {c : Nat} (h : isDigit c = false) (rest : List Nat) :
    tokenize (c :: rest) = .byte c :: tokenize rest := by
  rw [tokenize]
  simp [h]

theorem tokenize_cons_ne_nil (c : Nat) (rest : List Nat) : tokenize (c :: rest) ≠ [] := by
  by_cases h : isDigit c
  · rw [tokenize_cons_digit h]
    exact List.cons_ne_nil _ _
  · rw [tokenize_cons_nondigit (by simpa using h)]
    exact List.cons_ne_nil _ _

theorem isDigit_iff {c : Nat} : isDigit c = true ↔ 48 ≤ c ∧ c ≤ 57 := by
  simp [isDigit]

theorem cmp_digits_fst (a b : List Nat) :
    (cmp_digits a b).1 =
      (compare ((read_digits a).1).length ((read_digits b).1).length).then
        (sliceCmp (read_digits a).1 (read_digits b).1) := by
  simp only [cmp_digits]
  cases compare ((read_digits a).1).length ((read_digits b).1).length <;>
    simp [Ordering.then]

/-- Digit-branch step of the scan, in `Ordering.then` form. -/
theorem cmp_ascii_cons_then_digit {ac bc : Nat} {atail btail : List Nat}
    (hd : (isDigit ac && isDigit bc) = true) :
    cmp_ascii (ac :: atail) (bc :: btail) =
      ((cmp_digits (ac :: atail) (bc :: btail)).1).then
        (cmp_ascii ((cmp_digits (ac :: atail) (bc :: btail)).2.1)
          ((cmp_digits (ac :: atail) (bc :: btail)).2.2)) := by
  rw [cmp_ascii_cons, if_pos hd]
  rcases hc : cmp_digits (ac :: atail) (bc :: btail) with ⟨o, a2, b2⟩
  cases o <;> rfl

/-- Non-digit-branch step of the scan, in `Ordering.then` form. -/
theorem cmp_ascii_cons_then_nondigit {ac bc : Nat} {atail btail : List Nat}
    (hd : ¬(isDigit ac && isDigit bc) = true) :
    cmp_ascii (ac :: atail) (bc :: btail) =
      (compare ac bc).then (cmp_ascii atail btail) := by
  rw [cmp_ascii_cons, if_neg hd]
  cases compare ac bc <;> rfl

theorem tokenize_nil : tokenize [] = [] := by rw [tokenize]

theorem cmp_ascii_tokens_aux :
    ∀ n (a b : List Nat), a.length + b.length ≤ n →
      cmp_ascii a b = cmpTokList (tokenize a) (tokenize b) := by
  intro n
  induction n with
  | zero =>
    intro a b hn
    cases a with
    | cons ac atail => simp at hn
    | nil =>
      cases b with
      | cons bc btail => simp at hn
      | nil =>
        rw [tokenize_nil]
        decide
  | succ n ih =>
    intro a b hn
    cases a with
    | nil =>
      cases b with
      | nil =>
        rw [tokenize_nil]
        decide
      | cons bc btail =>
        rw [cmp_ascii_nil_left, tokenize_nil]
        rcases hb : tokenize (bc :: btail) with _ | ⟨t, ts⟩
        · exact absurd hb (tokenize_cons_ne_nil bc btail)
        · rw [Nat.compare_eq_lt.mpr (by simp)]
          rfl
    | cons ac atail =>
      cases b with
      | nil =>
        rw [cmp_ascii_nil_right, tokenize_nil]
        rcases ha : tokenize (ac :: atail) with _ | ⟨t, ts⟩
        · exact absurd ha (tokenize_cons_ne_nil ac atail)
        · rw [Nat.compare_eq_gt.mpr (by simp)]
          rfl
      | cons bc btail =>
        simp only [List.length_cons] at hn
        by_cases hda : isDigit ac = true <;> by_cases hdb : isDigit bc = true
        · have hd : (isDigit ac && isDigit bc) = true := by simp [hda, hdb]
          rw [cmp_ascii_cons_then_digit hd, tokenize_cons_digit hda,
            tokenize_cons_digit hdb]
          simp only [cmpTokList]
          congr 1
          · rw [cmp_digits_fst, read_digits_fst_comm, read_digits_fst_comm]
            rfl
          · rw [cmp_digits_snd_fst, cmp_digits_snd_snd, read_digits_snd_drop,
              read_digits_snd_drop]
            refine ih _ _ ?_
            have l1 : ((ac :: atail).dropWhile isDigit).length ≤ atail.length := by
              rw [List.dropWhile_cons_of_pos hda]
              exact (List.dropWhile_sublist _).length_le
            have l2 : ((bc :: btail).dropWhile isDigit).length ≤ btail.length := by
              rw [List.dropWhile_cons_of_pos hdb]
              exact (List.dropWhile_sublist _).length_le
            omega
        · have hd : ¬(isDigit ac && isDigit bc) = true := by simp [hdb]
          obtain ⟨ha1, ha2⟩ := isDigit_iff.mp hda
          have hb' : isDigit bc = false := by simpa using hdb
          have hbrange : bc < 48 ∨ 57 < bc := by
            rcases Nat.lt_or_ge bc 48 with h | h
            · exact Or.inl h
            · right
              by_contra hc
              exact hdb (isDigit_iff.mpr ⟨h, by omega⟩)
          rw [cmp_ascii_cons_then_nondigit hd, tokenize_cons_digit hda,
            tokenize_cons_nondigit hb']
          simp only [cmpTokList, cmpTok]
          rcases hbrange with hbr | hbr
          · rw [Nat.compare_eq_gt.mpr (by omega), if_pos hbr]
            rfl
          · rw [Nat.compare_eq_lt.mpr (by omega), if_neg (by omega)]
            rfl
        · have hd : ¬(isDigit ac && isDigit bc) = true := by simp [hda]
          obtain ⟨hb1, hb2⟩ := isDigit_iff.mp hdb
          have ha' : isDigit ac = false := by simpa using hda
          have harange : ac < 48 ∨ 57 < ac := by
            rcases Nat.lt_or_ge ac 48 with h | h
            · exact Or.inl h
            · right
              by_contra hc
              exact hda (isDigit_iff.mpr ⟨h, by omega⟩)
          rw [cmp_ascii_cons_then_nondigit hd, tokenize_cons_nondigit ha',
            tokenize_cons_digit hdb]
          simp only [cmpTokList, cmpTok]
          rcases harange with har | har
          · rw [Nat.compare_eq_lt.mpr (by omega), if_pos har]
            rfl
          · rw [Nat.compare_eq_gt.mpr (by omega), if_neg (by omega)]
            rfl
        · have hd : ¬(isDigit ac && isDigit bc) = true := by simp [hda]
          have ha' : isDigit ac = false := by simpa using hda
          have hb' : isDigit bc = false := by simpa using hdb
          rw [cmp_ascii_cons_then_nondigit hd, tokenize_cons_nondigit ha',
            tokenize_cons_nondigit hb']
          simp only [cmpTokList, cmpTok]
          congr 1
          exact ih atail btail (by omega)

/-- `cmp_ascii` is the lexicographic comparison of the scan-token lists. -/
theorem cmp_ascii_tokens (a b : List Nat) :
    cmp_ascii a b = cmpTokList (tokenize a) (tokenize b) :=
  cmp_ascii_tokens_aux (a.length + b.length) a b le_rfl

/-! ### Order axioms for `cmp_ascii` -/

theorem cmp_ascii_swap (a b : List Nat) : cmp_ascii b a = (cmp_ascii a b).swap := by
  rw [cmp_ascii_tokens, cmp_ascii_tokens, cmpTokList_swap]

theorem cmp_ascii_eq_iff_tokens {a b : List Nat} :
    cmp_ascii a b = .eq ↔ tokenize a = tokenize b := by
  rw [cmp_ascii_tokens, cmpTokList_eq_iff]

theorem cmp_ascii_refl (a : List Nat) : cmp_ascii a a = .eq :=
  cmp_ascii_eq_iff_tokens.mpr rfl

theorem cmp_ascii_le_trans {a b c : List Nat}
    (h1 : cmp_ascii a b ≠ .gt) (h2 : cmp_ascii b c ≠ .gt) : cmp_ascii a c ≠ .gt := by
  rw [cmp_ascii_tokens] at h1 h2 ⊢
  exact cmpTokList_trans _ _ _ h1 h2

theorem natural_le_total (a b : List Nat) : natural_cmp a b ≠ .gt ∨ natural_cmp b a ≠ .gt := by
  unfold natural_cmp
  cases h : cmp_ascii a b with
  | gt =>
    right
    rw [cmp_ascii_swap, h]
    decide
  | lt => left; simp [h]
  | eq => left; simp [h]

theorem natural_le_trans {a b c : List Nat} (h1 : natural_cmp a b ≠ .gt)
    (h2 : natural_cmp b c ≠ .gt) : natural_cmp a c ≠ .gt :=
  cmp_ascii_le_trans h1 h2

/-! ### The ordering newtype -/

/-- The newtype `Natural<T, Ref>`, modelled at `T = Ref =` byte span
(there `as_ref` is the identity and the `PhantomData` carries no state). -/
structure Natural where
  val : List Nat

/-- `impl PartialEq for Natural`: `self.0.as_ref().eq(other.0.as_ref())`.
In the generic context `Ref: ?Sized + NaturalSortable` the call resolves to the
sealed trait's `eq`, which on both the `str` and the `[u8]` view is the view's
intrinsic equality `self == other`. -/
def natural_eq (x y : Natural) : Bool := x.val == y.val

/-- `impl Ord for Natural`: `natural_cmp(&self.0, &other.0)`. -/
def natural_ord (x y : Natural) : Ordering := natural_cmp x.val y.val

/-! ### Decimal representations (for the digit-magnitude property) -/

/-- The decimal digit bytes of `n`, most significant first, without leading
zeros (so `decRepr 0 = [48]`, the single byte `b'0'`). -/
def decRepr (n : Nat) : List Nat :=
  if h : n < 10 then [n + 48] else decRepr (n / 10) ++ [n % 10 + 48]
termination_by n
decreasing_by
  exact Nat.div_lt_self (by omega) (by omega)

/-! ### The slice sort operations -/

/-- Modelled from the spec: the Rust slice sorts (`sort_by`, `sort_unstable_by`,
`sort_by_key`, `sort_unstable_by_key`, `sort_by_cached_key` of core/alloc, whose
algorithms are not part of this repository) reorder the slice into a
permutation of its elements that is non-decreasing under the comparator, the
stable ones keeping elements that compare equal in their original relative
order. Modelled as stable insertion sort over "the comparator does not return
Greater". -/
def sort_by_cmp {α : Type} (cmp : α → α → Ordering) (l : List α) : List α :=
  List.insertionSort (fun x y => cmp x y ≠ .gt) l

/-- `natural_sort_unstable`: `self.sort_unstable_by(natural_cmp)`. -/
def natural_sort_unstable (l : List (List Nat)) : List (List Nat) :=
  sort_by_cmp natural_cmp l

/-- `natural_sort`: `self.sort_by(natural_cmp)`. -/
def natural_sort (l : List (List Nat)) : List (List Nat) :=
  sort_by_cmp natural_cmp l

/-- `natural_sort_unstable_by_key`: `self.sort_unstable_by_key(|x| Natural::new(f(x)))`,
i.e. sort by `natural_cmp` on the derived key views. -/
def natural_sort_unstable_by_key {α : Type} (f : α → List Nat) (l : List α) : List α :=
  sort_by_cmp (fun x y => natural_cmp (f x) (f y)) l

/-- `natural_sort_by_key`: `self.sort_by_key(|x| Natural::new(f(x)))`. -/
def natural_sort_by_key {α : Type} (f : α → List Nat) (l : List α) : List α :=
  sort_by_cmp (fun x y => natural_cmp (f x) (f y)) l

/-- `natural_sort_by_cached_key`: `self.sort_by_cached_key(|x| Natural::new(f(x)))`. -/
def natural_sort_by_cached_key {α : Type} (f : α → List Nat) (l : List α) : List α :=
  sort_by_cmp (fun x y => natural_cmp (f x) (f y)) l

theorem sort_by_cmp_perm {α : Type} (cmp : α → α → Ordering) (l : List α) :
    (sort_by_cmp cmp l).Perm l :=
  List.perm_insertionSort _ l

theorem sort_by_cmp_sorted {α : Type} (cmp : α → α → Ordering) (l : List α)
    (htot : ∀ x y, cmp x y ≠ .gt ∨ cmp y x ≠ .gt)
    (htrans : ∀ x y z, cmp x y ≠ .gt → cmp y z ≠ .gt → cmp x z ≠ .gt) :
    (sort_by_cmp cmp l).Sorted (fun x y => cmp x y ≠ .gt) := by
  haveI : IsTotal α (fun x y => cmp x y ≠ .gt) := ⟨htot⟩
  haveI : IsTrans α (fun x y => cmp x y ≠ .gt) := ⟨htrans⟩
  exact List.sorted_insertionSort _ l

theorem sort_by_cmp_sorted_eq {α : Type} (cmp : α → α → Ordering) (l : List α)
    (h : l.Sorted (fun x y => cmp x y ≠ .gt)) : sort_by_cmp cmp l = l :=
  List.Sorted.insertionSort_eq h

theorem decRepr_lt10 {n : Nat} (h : n < 10) : decRepr n = [n + 48] := by
  rw [decRepr]
  simp [h]

theorem decRepr_ge10 {n : Nat} (h : ¬n < 10) : decRepr n = decRepr (n / 10) ++ [n % 10 + 48] := by
  rw [decRepr]
  simp [h]

theorem decRepr_ne_nil (n : Nat) : decRepr n ≠ [] := by
  by_cases h : n < 10
  · rw [decRepr_lt10 h]
    exact List.cons_ne_nil _ _
  · rw [decRepr_ge10 h]
    simp

theorem decRepr_length_pos (n : Nat) : 1 ≤ (decRepr n).length := by
  rcases h : decRepr n with _ | ⟨c, t⟩
  · exact absurd h (decRepr_ne_nil n)
  · simp

theorem decRepr_length_ge10 {n : Nat} (h : ¬n < 10) : 2 ≤ (decRepr n).length := by
  rw [decRepr_ge10 h]
  have := decRepr_length_pos (n / 10)
  simp only [List.length_append, List.length_cons, List.length_nil]
  omega

theorem decRepr_all_digits : ∀ n, ∀ c ∈ decRepr n, isDigit c = true := by
  intro n
  induction n using Nat.strong_induction_on with
  | _ n ih =>
    by_cases h : n < 10
    · rw [decRepr_lt10 h]
      intro c hc
      simp at hc
      subst hc
      exact isDigit_iff.mpr (by omega)
    · rw [decRepr_ge10 h]
      intro c hc
      rcases List.mem_append.mp hc with hc | hc
      · exact ih (n / 10) (Nat.div_lt_self (by omega) (by omega)) c hc
      · simp at hc
        subst hc
        have := Nat.mod_lt n (y := 10) (by omega)
        exact isDigit_iff.mpr (by omega)

/-- For a positive number the canonical representation has no leading zero,
so zero-trimming leaves it unchanged. -/
theorem trim_zeros_decRepr : ∀ n, 1 ≤ n → trim_zeros (decRepr n) = decRepr n := by
  intro n
  induction n using Nat.strong_induction_on with
  | _ n ih =>
    intro hn
    by_cases h : n < 10
    · rw [decRepr_lt10 h, trim_zeros_cons_ne (by omega)]
    · rw [decRepr_ge10 h]
      have hq : 1 ≤ n / 10 := Nat.le_div_iff_mul_le (by omega) |>.mpr (by omega)
      have := ih (n / 10) (Nat.div_lt_self (by omega) (by omega)) hq
      rcases hd : decRepr (n / 10) with _ | ⟨c, t⟩
      · exact absurd hd (decRepr_ne_nil _)
      · rw [hd] at this
        have hc : c ≠ 48 := by
          intro hc48
          rw [hc48, trim_zeros_cons_48] at this
          have := congrArg List.length this
          have hle := trim_zeros_length_le t
          simp at this
          omega
        rw [List.cons_append, trim_zeros_cons_ne hc]

theorem trim_zeros_decRepr_zero : trim_zeros (decRepr 0) = [] := by
  rw [decRepr_lt10 (by omega)]
  rfl

theorem decRepr_length_mono : ∀ n m, m ≤ n → (decRepr m).length ≤ (decRepr n).length := by
  intro n
  induction n using Nat.strong_induction_on with
  | _ n ih =>
    intro m hmn
    by_cases hm : m < 10
    · rw [decRepr_lt10 hm]
      simpa using decRepr_length_pos n
    · have hn : ¬n < 10 := by omega
      rw [decRepr_ge10 hm, decRepr_ge10 hn]
      simp only [List.length_append, List.length_cons, List.length_nil]
      have hq : m / 10 ≤ n / 10 := Nat.div_le_div_right hmn
      have := ih (n / 10) (Nat.div_lt_self (by omega) (by omega)) (m / 10) hq
      omega

theorem lt_of_decRepr_length_lt {m n : Nat}
    (h : (decRepr m).length < (decRepr n).length) : m < n := by
  by_contra hc
  exact absurd (decRepr_length_mono m n (by omega)) (by omega)

theorem sliceCmp_single (x y : Nat) : sliceCmp [x] [y] = compare x y := by
  show (match compare x y with | Ordering.eq => sliceCmp [] [] | o => o) = compare x y
  cases compare x y <;> rfl

theorem sliceCmp_append_single :
    ∀ (xs ys : List Nat) (x y : Nat), xs.length = ys.length →
      sliceCmp (xs ++ [x]) (ys ++ [y]) = (sliceCmp xs ys).then (compare x y)
  | [], [], x, y, _ => by
    rw [List.nil_append, List.nil_append, sliceCmp_single]
    rfl
  | [], _ :: _, _, _, h => by simp at h
  | _ :: _, [], _, _, h => by simp at h
  | a :: xs, b :: ys, x, y, h => by
    simp only [List.length_cons] at h
    show (match compare a b with
      | Ordering.eq => sliceCmp (xs ++ [x]) (ys ++ [y])
      | o => o) = ((match compare a b with
      | Ordering.eq => sliceCmp xs ys
      | o => o)).then (compare x y)
    cases compare a b with
    | eq => exact sliceCmp_append_single xs ys x y (by omega)
    | lt => rfl
    | gt => rfl

theorem compare_add_right (x y k : Nat) : compare (x + k) (y + k) = compare x y := by
  cases h : compare x y with
  | lt => exact Nat.compare_eq_lt.mpr (by have := Nat.compare_eq_lt.mp h; omega)
  | eq => exact Nat.compare_eq_eq.mpr (by have := Nat.compare_eq_eq.mp h; omega)
  | gt => exact Nat.compare_eq_gt.mpr (by have := Nat.compare_eq_gt.mp h; omega)

/-- Numeric comparison decomposes over the last decimal digit. -/
theorem compare_decompose (m n : Nat) :
    compare m n = (compare (m / 10) (n / 10)).then (compare (m % 10) (n % 10)) := by
  have hm := Nat.div_add_mod m 10
  have hn := Nat.div_add_mod n 10
  have hm' : m % 10 < 10 := Nat.mod_lt _ (by omega)
  have hn' : n % 10 < 10 := Nat.mod_lt _ (by omega)
  cases h : compare (m / 10) (n / 10) with
  | lt =>
    have hq := Nat.compare_eq_lt.mp h
    have : m < n := by omega
    rw [Nat.compare_eq_lt.mpr this]
    rfl
  | gt =>
    have hq := Nat.compare_eq_gt.mp h
    have : n < m := by omega
    rw [Nat.compare_eq_gt.mpr this]
    rfl
  | eq =>
    have hq := Nat.compare_eq_eq.mp h
    show compare m n = compare (m % 10) (n % 10)
    cases h2 : compare (m % 10) (n % 10) with
    | lt =>
      have := Nat.compare_eq_lt.mp h2
      exact Nat.compare_eq_lt.mpr (by omega)
    | eq =>
      have := Nat.compare_eq_eq.mp h2
      exact Nat.compare_eq_eq.mpr (by omega)
    | gt =>
      have := Nat.compare_eq_gt.mp h2
      exact Nat.compare_eq_gt.mpr (by omega)

/-- On representations with the same number of digits, the byte-wise slice
comparison is exactly numeric comparison. -/
theorem sliceCmp_decRepr : ∀ m n, (decRepr m).length = (decRepr n).length →
    sliceCmp (decRepr m) (decRepr n) = compare m n := by
  intro m
  induction m using Nat.strong_induction_on with
  | _ m ih =>
    intro n hlen
    by_cases hm : m < 10 <;> by_cases hn : n < 10
    · rw [decRepr_lt10 hm, decRepr_lt10 hn, sliceCmp_single, compare_add_right]
    · exfalso
      rw [decRepr_lt10 hm] at hlen
      have := decRepr_length_ge10 hn
      simp at hlen
      omega
    · exfalso
      rw [decRepr_lt10 hn] at hlen
      have := decRepr_length_ge10 hm
      simp at hlen
      omega
    · rw [decRepr_ge10 hm, decRepr_ge10 hn]
      have hlen' : (decRepr (m / 10)).length = (decRepr (n / 10)).length := by
        rw [decRepr_ge10 hm, decRepr_ge10 hn] at hlen
        simp only [List.length_append, List.length_cons, List.length_nil] at hlen
        omega
      rw [sliceCmp_append_single _ _ _ _ hlen',
        ih (m / 10) (Nat.div_lt_self (by omega) (by omega)) (n / 10) hlen',
        compare_add_right, ← compare_decompose]

theorem then_eq_right (o : Ordering) : o.then .eq = o := by
  cases o <;> rfl

theorem cmp_ascii_nil_nil : cmp_ascii [] [] = .eq := by decide

theorem trim_zeros_all_digits : ∀ {s : List Nat}, (∀ c ∈ s, isDigit c = true) →
    ∀ c ∈ trim_zeros s, isDigit c = true := by
  intro s
  induction s with
  | nil => simp [trim_zeros]
  | cons a t ih =>
    intro h
    by_cases h48 : a = 48
    · subst h48
      rw [trim_zeros_cons_48]
      exact ih fun c hc => h c (List.mem_cons_of_mem _ hc)
    · rw [trim_zeros_cons_ne h48]
      exact h

/-- On nonempty spans made only of ASCII digits, the scan is a single
digit-branch step: compare significant lengths, tie-break byte-wise. -/
theorem cmp_ascii_all_digits {A B : List Nat} (hA : A ≠ []) (hB : B ≠ [])
    (ha : ∀ c ∈ A, isDigit c = true) (hb : ∀ c ∈ B, isDigit c = true) :
    cmp_ascii A B =
      (compare (trim_zeros A).length (trim_zeros B).length).then
        (sliceCmp (trim_zeros A) (trim_zeros B)) := by
  rcases A with _ | ⟨ac, atail⟩
  · exact absurd rfl hA
  rcases B with _ | ⟨bc, btail⟩
  · exact absurd rfl hB
  have hda : isDigit ac = true := ha _ (List.mem_cons_self _ _)
  have hdb : isDigit bc = true := hb _ (List.mem_cons_self _ _)
  have hta := trim_zeros_all_digits ha
  have htb := trim_zeros_all_digits hb
  have h1 : (read_digits (ac :: atail)).1 = trim_zeros (ac :: atail) := by
    rw [read_digits_fst, List.takeWhile_eq_self_iff.mpr hta]
  have h1b : (read_digits (bc :: btail)).1 = trim_zeros (bc :: btail) := by
    rw [read_digits_fst, List.takeWhile_eq_self_iff.mpr htb]
  have h2 : (cmp_digits (ac :: atail) (bc :: btail)).2.1 = [] := by
    rw [cmp_digits_snd_fst, read_digits_snd, List.dropWhile_eq_nil_iff.mpr hta]
  have h2b : (cmp_digits (ac :: atail) (bc :: btail)).2.2 = [] := by
    rw [cmp_digits_snd_snd, read_digits_snd, List.dropWhile_eq_nil_iff.mpr htb]
  rw [cmp_ascii_cons_then_digit (by simp [hda, hdb]), h2, h2b, cmp_ascii_nil_nil,
    then_eq_right, cmp_digits_fst, h1, h1b]

/-- Core digit-magnitude fact: comparing zero-trimmed canonical representations
by (length, bytes) is numeric comparison. -/
theorem digit_magnitude_core (m n : Nat) :
    (compare (trim_zeros (decRepr m)).length (trim_zeros (decRepr n)).length).then
      (sliceCmp (trim_zeros (decRepr m)) (trim_zeros (decRepr n))) = compare m n := by
  rcases Nat.eq_zero_or_pos m with hm | hm <;> rcases Nat.eq_zero_or_pos n with hn | hn
  · subst hm; subst hn
    rw [trim_zeros_decRepr_zero]
    decide
  · subst hm
    rw [trim_zeros_decRepr_zero, trim_zeros_decRepr n hn]
    simp only [List.length_nil]
    rw [Nat.compare_eq_lt.mpr (by simpa using decRepr_length_pos n),
      Nat.compare_eq_lt.mpr (by omega)]
    rfl
  · subst hn
    rw [trim_zeros_decRepr_zero, trim_zeros_decRepr m hm]
    simp only [List.length_nil]
    rw [Nat.compare_eq_gt.mpr (by simpa using decRepr_length_pos m),
      Nat.compare_eq_gt.mpr (by omega)]
    rfl
  · rw [trim_zeros_decRepr m hm, trim_zeros_decRepr n hn]
    cases hc : compare (decRepr m).length (decRepr n).length with
    | eq => exact sliceCmp_decRepr m n (Nat.compare_eq_eq.mp hc)
    | lt =>
      have hlt := lt_of_decRepr_length_lt (Nat.compare_eq_lt.mp hc)
      rw [Nat.compare_eq_lt.mpr hlt]
      rfl
    | gt =>
      have hgt := lt_of_decRepr_length_lt (Nat.compare_eq_gt.mp hc)
      rw [Nat.compare_eq_gt.mpr hgt]
      rfl

theorem trim_zeros_replicate_append : ∀ (k : Nat) (s : List Nat),
    trim_zeros (List.replicate k 48 ++ s) = trim_zeros s
  | 0, s => by simp
  | k + 1, s => by
    rw [List.replicate_succ, List.cons_append, trim_zeros_cons_48,
      trim_zeros_replicate_append k s]

/-- Decimal strings with arbitrary leading-zero padding compare exactly as
their numeric values. -/
theorem natural_cmp_decimal (m n zm zn : Nat) :
    natural_cmp (List.replicate zm 48 ++ decRepr m)
      (List.replicate zn 48 ++ decRepr n) = compare m n := by
  have hA : List.replicate zm 48 ++ decRepr m ≠ [] := by
    simp [decRepr_ne_nil m]
  have hB : List.replicate zn 48 ++ decRepr n ≠ [] := by
    simp [decRepr_ne_nil n]
  have ha : ∀ c ∈ List.replicate zm 48 ++ decRepr m, isDigit c = true := by
    intro c hc
    rcases List.mem_append.mp hc with hc | hc
    · rw [(List.eq_of_mem_replicate hc)]
      exact isDigit_48
    · exact decRepr_all_digits m c hc
  have hb : ∀ c ∈ List.replicate zn 48 ++ decRepr n, isDigit c = true := by
    intro c hc
    rcases List.mem_append.mp hc with hc | hc
    · rw [(List.eq_of_mem_replicate hc)]
      exact isDigit_48
    · exact decRepr_all_digits n c hc
  unfold natural_cmp
  rw [cmp_ascii_all_digits hA hB ha hb, trim_zeros_replicate_append,
    trim_zeros_replicate_append]
  exact digit_magnitude_core m n

/-- Spec-side definition (for the refinement claim on digit-free spans):
"standard lexicographic byte-ordinal comparison": element-wise byte
comparison, a strict initial segment ordered `Less`. Written from the spec's
words, to be compared with `cmp_ascii`. -/
def lex_ordinal_cmp : List Nat → List Nat → Ordering
  | [], [] => .eq
  | [], _ :: _ => .lt
  | _ :: _, [] => .gt
  | x :: xs, y :: ys =>
    match compare x y with
    | .eq => lex_ordinal_cmp xs ys
    | o => o

theorem cmp_ascii_eq_lex_of_no_digits :
    ∀ a b : List Nat, (∀ c ∈ a, isDigit c = false) → (∀ c ∈ b, isDigit c = false) →
      cmp_ascii a b = lex_ordinal_cmp a b
  | [], [], _, _ => by decide
  | [], bc :: btail, _, _ => by
    rw [cmp_ascii_nil_left, Nat.compare_eq_lt.mpr (by simp)]
    rfl
  | ac :: atail, [], _, _ => by
    rw [cmp_ascii_nil_right, Nat.compare_eq_gt.mpr (by simp)]
    rfl
  | ac :: atail, bc :: btail, ha, hb => by
    have hda : isDigit ac = false := ha _ (List.mem_cons_self _ _)
    rw [cmp_ascii_cons_then_nondigit (by simp [hda])]
    show _ = (match compare ac bc with
      | Ordering.eq => lex_ordinal_cmp atail btail
      | o => o)
    cases compare ac bc with
    | eq =>
      exact cmp_ascii_eq_lex_of_no_digits atail btail
        (fun c hc => ha c (List.mem_cons_of_mem _ hc))
        (fun c hc => hb c (List.mem_cons_of_mem _ hc))
    | lt => rfl
    | gt => rfl

/-- When exactly one of the two current bytes is an ASCII digit, the digit
branch is skipped and the raw byte ordinals decide immediately. -/
theorem cmp_ascii_mixed_head {ac bc : Nat} (h : isDigit ac ≠ isDigit bc)
    (atail btail : List Nat) :
    cmp_ascii (ac :: atail) (bc :: btail) = compare ac bc := by
  have hd : ¬(isDigit ac && isDigit bc) = true := by
    intro hcontra
    obtain ⟨h1, h2⟩ : isDigit ac = true ∧ isDigit bc = true := by
      simpa [Bool.and_eq_true] using hcontra
    exact h (h1.trans h2.symm)
  rw [cmp_ascii_cons_then_nondigit hd]
  cases hc : compare ac bc with
  | eq =>
    obtain rfl : ac = bc := Nat.compare_eq_eq.mp hc
    exact absurd rfl h
  | lt => rfl
  | gt => rfl

/-! ## Claim theorems -/

/-- C1 (code bug in the source): the spec demands that equality of two
`Natural` values be decided exclusively by the natural-order comparator on the
byte-span views, never by intrinsic byte-wise equality. The code's
`PartialEq for Natural` resolves to the sealed trait's `eq`, the view's
intrinsic equality: at the views "a07b" (97,48,55,98) and "a7b" (97,55,98)
it returns `false` while `Ord::cmp` (= `natural_cmp`) returns `Equal`, so
`==` is not equivalent to the comparator returning `Equal`. -/
theorem natural_eq_intrinsic_at_a07b :
    natural_eq ⟨[97, 48, 55, 98]⟩ ⟨[97, 55, 98]⟩ = false ∧
      natural_ord ⟨[97, 48, 55, 98]⟩ ⟨[97, 55, 98]⟩ = .eq := by
  constructor
  · decide
  · decide

/-- C2: the comparator is a total order on byte spans: it returns exactly one
of Less, Equal, Greater; comparing in the reverse order yields the swapped
result (antisymmetry, and Equal is symmetric); and Less-or-Equal is
transitive. -/
theorem natural_cmp_total_order (a b c : List Nat) :
    (cmp_ascii a b = .lt ∨ cmp_ascii a b = .eq ∨ cmp_ascii a b = .gt) ∧
      cmp_ascii b a = (cmp_ascii a b).swap ∧
      (cmp_ascii a b = .eq ↔ cmp_ascii b a = .eq) ∧
      (cmp_ascii a b ≠ .gt → cmp_ascii b c ≠ .gt → cmp_ascii a c ≠ .gt) := by
  refine ⟨?_, cmp_ascii_swap a b, ?_, fun h1 h2 => cmp_ascii_le_trans h1 h2⟩
  · cases cmp_ascii a b with
    | lt => exact Or.inl rfl
    | eq => exact Or.inr (Or.inl rfl)
    | gt => exact Or.inr (Or.inr rfl)
  · rw [cmp_ascii_swap a b]
    cases cmp_ascii a b <;> simp [Ordering.swap]

/-- Concrete instantiation of the transitivity hypotheses of the C2 theorem
at the spans "1", "2", "3". -/
theorem natural_cmp_total_order_witness :
    cmp_ascii [49] [50] ≠ .gt ∧ cmp_ascii [50] [51] ≠ .gt ∧
      cmp_ascii [49] [51] ≠ .gt :=
  ⟨by decide, by decide,
    (natural_cmp_total_order [49] [50] [51]).2.2.2 (by decide) (by decide)⟩

/-- C3: for all non-negative `m`, `n` and decimal digit strings representing
them with arbitrarily many leading zeros (`zm`, `zn` zero bytes of padding),
`natural_cmp` agrees with numeric comparison, independent of the padding. -/
theorem natural_cmp_digit_magnitude (m n zm zn : Nat) :
    (natural_cmp (List.replicate zm 48 ++ decRepr m)
        (List.replicate zn 48 ++ decRepr n) = .lt ↔ m < n) ∧
      (natural_cmp (List.replicate zm 48 ++ decRepr m)
        (List.replicate zn 48 ++ decRepr n) = .eq ↔ m = n) ∧
      (natural_cmp (List.replicate zm 48 ++ decRepr m)
        (List.replicate zn 48 ++ decRepr n) = .gt ↔ n < m) := by
  rw [natural_cmp_decimal m n zm zn]
  exact ⟨Nat.compare_eq_lt, Nat.compare_eq_eq, Nat.compare_eq_gt⟩

/-- C4: every sort operation returns a permutation of its input (so length
and the multiset of elements are unchanged) that is pairwise non-decreasing
under `natural_cmp` on the elements' views, resp. on the derived keys. -/
theorem natural_sort_operations_spec {α : Type} (f : α → List Nat)
    (l : List (List Nat)) (k : List α) :
    ((natural_sort_unstable l).Perm l ∧
        (natural_sort_unstable l).Sorted (fun a b => natural_cmp a b ≠ .gt)) ∧
      ((natural_sort l).Perm l ∧
        (natural_sort l).Sorted (fun a b => natural_cmp a b ≠ .gt)) ∧
      ((natural_sort_unstable_by_key f k).Perm k ∧
        (natural_sort_unstable_by_key f k).Sorted
          (fun x y => natural_cmp (f x) (f y) ≠ .gt)) ∧
      ((natural_sort_by_key f k).Perm k ∧
        (natural_sort_by_key f k).Sorted
          (fun x y => natural_cmp (f x) (f y) ≠ .gt)) ∧
      ((natural_sort_by_cached_key f k).Perm k ∧
        (natural_sort_by_cached_key f k).Sorted
          (fun x y => natural_cmp (f x) (f y) ≠ .gt)) := by
  refine ⟨⟨sort_by_cmp_perm _ _, ?_⟩, ⟨sort_by_cmp_perm _ _, ?_⟩,
    ⟨sort_by_cmp_perm _ _, ?_⟩, ⟨sort_by_cmp_perm _ _, ?_⟩,
    ⟨sort_by_cmp_perm _ _, ?_⟩⟩
  · exact sort_by_cmp_sorted _ _ natural_le_total
      fun x y z h1 h2 => natural_le_trans h1 h2
  · exact sort_by_cmp_sorted _ _ natural_le_total
      fun x y z h1 h2 => natural_le_trans h1 h2
  · exact sort_by_cmp_sorted _ _ (fun x y => natural_le_total (f x) (f y))
      fun x y z h1 h2 => natural_le_trans h1 h2
  · exact sort_by_cmp_sorted _ _ (fun x y => natural_le_total (f x) (f y))
      fun x y z h1 h2 => natural_le_trans h1 h2
  · exact sort_by_cmp_sorted _ _ (fun x y => natural_le_total (f x) (f y))
      fun x y z h1 h2 => natural_le_trans h1 h2

/-- C5: when both current bytes are digits, the digit branch strictly consumes
at least one byte from each remaining span (the advanced slices are strictly
shorter), and the comparator is a total function over any two byte spans,
empty ones included. -/
theorem cmp_ascii_consumes_and_total (ac bc : Nat) (atail btail : List Nat) :
    (isDigit ac = true → isDigit bc = true →
        ((cmp_digits (ac :: atail) (bc :: btail)).2.1.length <
            (ac :: atail).length ∧
          (cmp_digits (ac :: atail) (bc :: btail)).2.2.length <
            (bc :: btail).length)) ∧
      ∀ a b : List Nat, ∃ o : Ordering, cmp_ascii a b = o := by
  refine ⟨fun h1 h2 => ⟨?_, ?_⟩, fun a b => ⟨cmp_ascii a b, rfl⟩⟩
  · rw [cmp_digits_snd_fst]
    have := read_digits_snd_length_lt h1 atail
    simp only [List.length_cons]
    omega
  · rw [cmp_digits_snd_snd]
    have := read_digits_snd_length_lt h2 btail
    simp only [List.length_cons]
    omega

/-- Concrete instantiation of the digit hypotheses of the C5 theorem at the
spans "0a" and "12". -/
theorem cmp_ascii_consumes_and_total_witness :
    isDigit 48 = true ∧ isDigit 49 = true ∧
      (cmp_digits [48, 97] [49, 50]).2.1.length < ([48, 97] : List Nat).length ∧
      (cmp_digits [48, 97] [49, 50]).2.2.length < ([49, 50] : List Nat).length :=
  ⟨by decide, by decide,
    ((cmp_ascii_consumes_and_total 48 49 [97] [50]).1 (by decide) (by decide)).1,
    ((cmp_ascii_consumes_and_total 48 49 [97] [50]).1 (by decide) (by decide)).2⟩

/-- C6: "file0002.txt" compares Greater than "file1B.txt" and Less than
"file11.txt" (byte lists spell the ASCII strings), and in general, when
exactly one of the two current bytes is an ASCII digit the digit-run branch
is not taken and the raw byte ordinals decide. -/
theorem digit_vs_nondigit_raw_ordinal :
    natural_cmp [102, 105, 108, 101, 48, 48, 48, 50, 46, 116, 120, 116]
        [102, 105, 108, 101, 49, 66, 46, 116, 120, 116] = .gt ∧
      natural_cmp [102, 105, 108, 101, 48, 48, 48, 50, 46, 116, 120, 116]
        [102, 105, 108, 101, 49, 49, 46, 116, 120, 116] = .lt ∧
      ∀ (ac bc : Nat) (atail btail : List Nat), isDigit ac ≠ isDigit bc →
        cmp_ascii (ac :: atail) (bc :: btail) = compare ac bc :=
  ⟨by decide, by decide, fun _ _ atail btail h => cmp_ascii_mixed_head h atail btail⟩

/-- Concrete instantiation of the mixed-byte hypothesis of the C6 theorem:
digit `'2'` (50) against non-digit `'B'` (66). -/
theorem digit_vs_nondigit_raw_ordinal_witness :
    isDigit 50 ≠ isDigit 66 ∧ cmp_ascii [50, 97] [66, 98] = compare 50 66 :=
  ⟨by decide, digit_vs_nondigit_raw_ordinal.2.2 50 66 [97] [98] (by decide)⟩

/-- C7: on byte spans containing no ASCII digit, `cmp_ascii` returns exactly
the standard lexicographic byte-ordinal comparison (`lex_ordinal_cmp`,
written from the spec). -/
theorem nondigit_spans_lexicographic (a b : List Nat)
    (ha : ∀ c ∈ a, isDigit c = false) (hb : ∀ c ∈ b, isDigit c = false) :
    cmp_ascii a b = lex_ordinal_cmp a b :=
  cmp_ascii_eq_lex_of_no_digits a b ha hb

/-- Concrete instantiation of the digit-free hypotheses of the C7 theorem at
the spans "ac" and "ab". -/
theorem nondigit_spans_lexicographic_witness :
    (∀ c ∈ ([97, 99] : List Nat), isDigit c = false) ∧
      (∀ c ∈ ([97, 98] : List Nat), isDigit c = false) ∧
      cmp_ascii [97, 99] [97, 98] = lex_ordinal_cmp [97, 99] [97, 98] :=
  ⟨by decide, by decide,
    nondigit_spans_lexicographic [97, 99] [97, 98] (by decide) (by decide)⟩

/-- C8: sorting an already naturally-sorted list with a direct-comparator
variant leaves it element-wise identical, and sorting is idempotent: the
stable sort of an already-sorted output changes nothing, so the relative
order of comparator-equal elements is preserved across repeated sorts. -/
theorem natural_sort_idempotent (l : List (List Nat)) :
    (l.Sorted (fun a b => natural_cmp a b ≠ .gt) →
        natural_sort l = l ∧ natural_sort_unstable l = l) ∧
      natural_sort (natural_sort l) = natural_sort l := by
  constructor
  · intro h
    exact ⟨sort_by_cmp_sorted_eq _ _ h, sort_by_cmp_sorted_eq _ _ h⟩
  · exact sort_by_cmp_sorted_eq _ _
      (sort_by_cmp_sorted _ _ natural_le_total
        fun x y z h1 h2 => natural_le_trans h1 h2)

/-- Concrete instantiation of the sortedness hypothesis of the C8 theorem at
the sorted list ["1", "2"]. -/
theorem natural_sort_idempotent_witness :
    ([[49], [50]] : List (List Nat)).Sorted (fun a b => natural_cmp a b ≠ .gt) ∧
      natural_sort [[49], [50]] = [[49], [50]] ∧
      natural_sort_unstable [[49], [50]] = [[49], [50]] :=
  ⟨by decide, ((natural_sort_idempotent [[49], [50]]).1 (by decide)).1,
    ((natural_sort_idempotent [[49], [50]]).1 (by decide)).2⟩

/-- C9: in `read_digits` the loop counter (`digit_count` of the trimmed slice)
never exceeds the remaining length, so the pointer reconstruction of the run
is in bounds; the returned run equals the zero-trimmed maximal digit run of
the input, exactly what index-based slicing would produce, and the slice is
advanced past the entire digit run. -/
theorem read_digits_inbounds_and_slicing (s : List Nat) :
    digit_count (trim_zeros s) ≤ (trim_zeros s).length ∧
      (read_digits s).1 = (trim_zeros s).takeWhile isDigit ∧
      (read_digits s).1 = trim_zeros (s.takeWhile isDigit) ∧
      (read_digits s).2 = s.dropWhile isDigit :=
  ⟨digit_count_le _, read_digits_fst s, read_digits_fst_comm s,
    read_digits_snd_drop s⟩

/-- C10: the comparator returns Equal on byte-wise distinct inputs: any two
nonempty all-zero digit runs compare Equal (both trim to empty), and
"a07b" compares Equal to "a7b" although the byte spans differ. -/
theorem cmp_eq_without_byte_equality :
    (∀ m n : Nat, 1 ≤ m → 1 ≤ n →
        natural_cmp (List.replicate m 48) (List.replicate n 48) = .eq) ∧
      natural_cmp [97, 48, 55, 98] [97, 55, 98] = .eq ∧
      [97, 48, 55, 98] ≠ [97, 55, 98] := by
  refine ⟨?_, by decide, by decide⟩
  intro m n hm hn
  obtain ⟨m', rfl⟩ : ∃ m', m = m' + 1 := ⟨m - 1, by omega⟩
  obtain ⟨n', rfl⟩ : ∃ n', n = n' + 1 := ⟨n - 1, by omega⟩
  have h0 : decRepr 0 = [48] := decRepr_lt10 (by omega)
  rw [List.replicate_succ', List.replicate_succ', ← h0,
    natural_cmp_decimal 0 0 m' n']
  decide

/-- Concrete instantiation of the positivity hypotheses of the C10 theorem:
"000" compares Equal to "00". -/
theorem cmp_eq_without_byte_equality_witness :
    1 ≤ 3 ∧ 1 ≤ 2 ∧
      natural_cmp (List.replicate 3 48) (List.replicate 2 48) = .eq :=
  ⟨by decide, by decide,
    cmp_eq_without_byte_equality.1 3 2 (by decide) (by decide)⟩

end NaturalSortRs
